import Mathlib

/-! Shallow embedding of the print-layout packing core of the image-tools
repository (`src/components/PrintLayout.tsx`): the MaxRects packer
(`findPosition`, `place`, `pruneRects`), the page allocator `packImages`,
the cut-mark length computations of the canvas and PDF renderers, and the
image-resize operation `updateImageSize`.  All geometry is in millimetres,
modelled over `ℚ`. -/

namespace ImageTools

/-- `Rect` from the source: x, y, width, height in millimetres. -/
structure Rect where
  x : ℚ
  y : ℚ
  width : ℚ
  height : ℚ
deriving DecidableEq

/-- `PrintImage` from the source (the `url`/`sourceId` fields, which the
packing core never reads, are omitted). -/
structure PrintImage where
  id : String
  width : ℚ
  height : ℚ
  naturalWidth : ℚ
  naturalHeight : ℚ
deriving DecidableEq

/-- `PackedImage` from the source: a placement of one `PrintImage`. -/
structure PackedImage where
  image : PrintImage
  x : ℚ
  y : ℚ
  rotated : Bool
deriving DecidableEq

/-- `Page` from the source. -/
structure Page where
  images : List PackedImage
deriving DecidableEq

/-- Result type of `MaxRectsPacker.findPosition`. -/
structure Position where
  x : ℚ
  y : ℚ
  rotated : Bool
deriving DecidableEq

/-- `CUT_MARKER_LENGTH` from the source (mm). -/
def CUT_MARKER_LENGTH : ℚ := 5

/-- `MM_TO_PX` from the source (1mm = ~3.78px at 96 DPI). -/
def MM_TO_PX : ℚ := 37795275591 / 10000000000

/-- `MaxRectsPacker.intersects`: the placed/free rectangle overlap test. -/
def Rect.intersects (a b : Rect) : Bool :=
  !(decide (b.x + b.width ≤ a.x) || decide (a.x + a.width ≤ b.x) ||
    decide (b.y + b.height ≤ a.y) || decide (a.y + a.height ≤ b.y))

/-- `MaxRectsPacker.contains`: `inner` lies inside `outer`. -/
def Rect.contains (outer inner : Rect) : Bool :=
  decide (outer.x ≤ inner.x) && decide (outer.y ≤ inner.y) &&
  decide (inner.x + inner.width ≤ outer.x + outer.width) &&
  decide (inner.y + inner.height ≤ outer.y + outer.height)

/-- The update of the running best candidate in `findPosition`:
keep the old candidate unless the new score is strictly smaller
(`none` plays the role of the initial `Infinity` score). -/
def tryCandidate (best : Option (ℚ × Position)) (score : ℚ) (pos : Position) :
    Option (ℚ × Position) :=
  match best with
  | none => some (score, pos)
  | some (bestScore, bestPos) =>
    if score < bestScore then some (score, pos) else some (bestScore, bestPos)

/-- The normal-orientation test of one `findPosition` iteration. -/
def findPosNormal (width height : ℚ) (best : Option (ℚ × Position))
    (rect : Rect) : Option (ℚ × Position) :=
  if width ≤ rect.width ∧ height ≤ rect.height then
    tryCandidate best (min (rect.width - width) (rect.height - height))
      ⟨rect.x, rect.y, false⟩
  else best

/-- One iteration of the `findPosition` loop: try the normal orientation,
then the rotated one, against the running best. -/
def findPosAux (width height : ℚ) (best : Option (ℚ × Position)) (rect : Rect) :
    Option (ℚ × Position) :=
  if height ≤ rect.width ∧ width ≤ rect.height then
    tryCandidate (findPosNormal width height best rect)
      (min (rect.width - height) (rect.height - width))
      ⟨rect.x, rect.y, true⟩
  else findPosNormal width height best rect

/-- `MaxRectsPacker.findPosition`: best-short-side-fit over the free
rectangles, trying both orientations. -/
def findPosition (freeRects : List Rect) (width height : ℚ) : Option Position :=
  (freeRects.foldl (findPosAux width height) none).map Prod.snd

/-- The four residual strips (left, right, top, bottom) that `place` pushes
for a free rectangle overlapping the placed rectangle. -/
def splitFreeRect (placed freeRect : Rect) : List Rect :=
  (if freeRect.x < placed.x then
    [⟨freeRect.x, freeRect.y, placed.x - freeRect.x, freeRect.height⟩]
   else []) ++
  (if placed.x + placed.width < freeRect.x + freeRect.width then
    [⟨placed.x + placed.width, freeRect.y,
      freeRect.x + freeRect.width - (placed.x + placed.width), freeRect.height⟩]
   else []) ++
  (if freeRect.y < placed.y then
    [⟨freeRect.x, freeRect.y, freeRect.width, placed.y - freeRect.y⟩]
   else []) ++
  (if placed.y + placed.height < freeRect.y + freeRect.height then
    [⟨freeRect.x, placed.y + placed.height, freeRect.width,
      freeRect.y + freeRect.height - (placed.y + placed.height)⟩]
   else [])

/-- `MaxRectsPacker.pruneRects`: drop any rectangle contained in a
rectangle at another index. -/
def pruneRects (rects : List Rect) : List Rect :=
  (rects.enum.filter fun p =>
    !(rects.enum.any fun q => decide (q.1 ≠ p.1) && Rect.contains q.2 p.2)).map
    Prod.snd

/-- `MaxRectsPacker.place`: rebuild the free-rectangle list around a newly
placed rectangle, then prune. -/
def placeRects (freeRects : List Rect) (placed : Rect) : List Rect :=
  pruneRects ((freeRects.map fun freeRect =>
    if Rect.intersects placed freeRect then splitFreeRect placed freeRect
    else [freeRect]).flatten)

/-- The per-page placement pass of `packImages`: walk the remaining images
in order against one packer, committing every image for which
`findPosition` succeeds.  Returns the placed images (page-relative
coordinates) and the final free-rectangle list. -/
def passPlace (pageMargin imageMargin : ℚ) :
    List PrintImage → List Rect → List PackedImage × List Rect
  | [], freeRects => ([], freeRects)
  | img :: rest, freeRects =>
    let imgWidth := img.width + imageMargin
    let imgHeight := img.height + imageMargin
    match findPosition freeRects imgWidth imgHeight with
    | some pos =>
      let actualWidth := if pos.rotated then imgHeight else imgWidth
      let actualHeight := if pos.rotated then imgWidth else imgHeight
      let res := passPlace pageMargin imageMargin rest
        (placeRects freeRects ⟨pos.x, pos.y, actualWidth, actualHeight⟩)
      ({ image := img, x := pos.x + pageMargin, y := pos.y + pageMargin,
         rotated := pos.rotated } :: res.1, res.2)
    | none => passPlace pageMargin imageMargin rest freeRects

/-- One iteration of the outer `while` loop of `packImages`: run a
placement pass on a fresh packer, remove the placed images, and if nothing
was placed fall back to placing the head of the remaining list at
`(pageMargin, pageMargin)`.  Returns the page and the new remaining list. -/
def packStep (availableWidth availableHeight pageMargin imageMargin : ℚ)
    (remainingImages : List PrintImage) : Page × List PrintImage :=
  let placed :=
    (passPlace pageMargin imageMargin remainingImages
      [⟨0, 0, availableWidth, availableHeight⟩]).1
  let placedIds := placed.map fun p => p.image.id
  let newRemaining := remainingImages.filter fun img => !placedIds.contains img.id
  if 0 < placed.length then
    (⟨placed⟩, newRemaining)
  else
    match newRemaining with
    | [] => (⟨[]⟩, [])
    | img :: rest =>
      let fitsNormal :=
        decide (img.width ≤ availableWidth) && decide (img.height ≤ availableHeight)
      let fitsRotated :=
        decide (img.height ≤ availableWidth) && decide (img.width ≤ availableHeight)
      (⟨[{ image := img, x := pageMargin, y := pageMargin,
           rotated := !fitsNormal && fitsRotated }]⟩, rest)

/-- The comparator of `packImages`, `(a, b) => b.width*b.height −
a.width*a.height`, orders by area descending; JavaScript's
`Array.prototype.sort` is stable, so the sort is modelled by the stable
`insertionSort` under this relation. -/
def areaGe (a b : PrintImage) : Prop :=
  b.width * b.height ≤ a.width * a.height

instance : DecidableRel areaGe := fun a b =>
  inferInstanceAs (Decidable (b.width * b.height ≤ a.width * a.height))

/-- The outer `while` loop of `packImages`, driven by a fuel counter; the
fuel `remainingImages.length` always suffices because every iteration
strictly shrinks the remaining list (`packStep_length_lt`). -/
def packLoopFuel (aW aH pm im : ℚ) : Nat → List PrintImage → List Page
  | 0, _ => []
  | _ + 1, [] => []
  | fuel + 1, img :: rest =>
    (packStep aW aH pm im (img :: rest)).1 ::
      packLoopFuel aW aH pm im fuel (packStep aW aH pm im (img :: rest)).2

/-- The outer `while` loop of `packImages`. -/
def packLoop (aW aH pm im : ℚ) (rem : List PrintImage) : List Page :=
  packLoopFuel aW aH pm im rem.length rem

/-- `packImages` from the source: sort a copy of the image list by area
descending and fill pages until no image remains. -/
def packImages (images : List PrintImage)
    (pageWidth pageHeight pageMargin imageMargin : ℚ) : List Page :=
  let availableWidth := pageWidth - 2 * pageMargin
  let availableHeight := pageHeight - 2 * pageMargin
  let sortedImages := images.insertionSort areaGe
  packLoop availableWidth availableHeight pageMargin imageMargin sortedImages

/-- All placements of a page list, in order. -/
def allPlaced : List Page → List PackedImage
  | [] => []
  | pg :: pgs => pg.images ++ allPlaced pgs

/-- The margin-inflated bounding box of a placement, in page coordinates:
anchored at the placement's `(x, y)` with the image's footprint inflated
by the inter-image margin, the two sizes swapped when rotated. -/
def inflatedRect (imageMargin : ℚ) (p : PackedImage) : Rect :=
  ⟨p.x, p.y,
   if p.rotated then p.image.height + imageMargin else p.image.width + imageMargin,
   if p.rotated then p.image.width + imageMargin else p.image.height + imageMargin⟩

/-- The same box translated back into the packer's printable-area
coordinates (the placement stores `position + pageMargin`). -/
def packerBox (pageMargin imageMargin : ℚ) (p : PackedImage) : Rect :=
  ⟨p.x - pageMargin, p.y - pageMargin,
   if p.rotated then p.image.height + imageMargin else p.image.width + imageMargin,
   if p.rotated then p.image.width + imageMargin else p.image.height + imageMargin⟩

/-- State-passing rendering of a `packImages` call: the source copies the
input (`[...images]`) before sorting and splices only copies, so alongside
the page list we return the caller's `images` array as it stands after
the call. -/
def packImagesMut (images : List PrintImage)
    (pageWidth pageHeight pageMargin imageMargin : ℚ) :
    List Page × List PrintImage :=
  let sortedImages := images.insertionSort areaGe
  let remainingImages := sortedImages
  (packLoop (pageWidth - 2 * pageMargin) (pageHeight - 2 * pageMargin)
    pageMargin imageMargin remainingImages, images)

/-- The marker-length computation of the canvas renderer
(`drawPackedImage`): `max(0, imageMargin·scale/2 − 1)`. -/
def canvasMaxMarkerLen (imageMargin scale : ℚ) : ℚ :=
  max 0 (imageMargin * scale / 2 - 1)

/-- The marker length drawn by the canvas renderer:
`min(CUT_MARKER_LENGTH·scale, max(2, maxMarkerLen))`. -/
def canvasMarkerLen (imageMargin scale : ℚ) : ℚ :=
  min (CUT_MARKER_LENGTH * scale) (max 2 (canvasMaxMarkerLen imageMargin scale))

/-- The canvas renderer draws the eight corner marks iff `markerLen > 1`. -/
def canvasMarksDrawn (imageMargin scale : ℚ) : Bool :=
  decide (1 < canvasMarkerLen imageMargin scale)

/-- The marker length of the PDF export and of the print-window renderer:
`min(CUT_MARKER_LENGTH, max(1, imageMargin/2 − 0.5))`. -/
def pdfMarkerLen (imageMargin : ℚ) : ℚ :=
  min CUT_MARKER_LENGTH (max 1 (imageMargin / 2 - 1 / 2))

/-- The PDF/print renderers draw the eight corner marks iff
`markerLen > 0.5`. -/
def pdfMarksDrawn (imageMargin : ℚ) : Bool :=
  decide (1 / 2 < pdfMarkerLen imageMargin)

/-- The cut-mark segment length as the specification words it:
`min(fixedDefaultLength, max(0, margin/2 − smallClearance))`; stated here
only to compare it with the source's computations. -/
def specCutMarkLen (fixedDefaultLength smallClearance margin : ℚ) : ℚ :=
  min fixedDefaultLength (max 0 (margin / 2 - smallClearance))

/-- Specification of a successful `findPosition` answer: it names the
corner of one of the free rectangles, and the requested footprint (swapped
when rotated) fits inside that rectangle. -/
def posOk (freeRects : List Rect) (width height : ℚ) (pos : Position) : Prop :=
  ∃ f ∈ freeRects, pos.x = f.x ∧ pos.y = f.y ∧
    ((pos.rotated = false ∧ width ≤ f.width ∧ height ≤ f.height) ∨
     (pos.rotated = true ∧ height ≤ f.width ∧ width ≤ f.height))

/-- A placement's (non-inflated) bounding box lies inside
`[pageMargin, pageDim − pageMargin]` on both axes. -/
def inBounds (pageWidth pageHeight pageMargin : ℚ) (p : PackedImage) : Prop :=
  pageMargin ≤ p.x ∧ pageMargin ≤ p.y ∧
  p.x + (if p.rotated then p.image.height else p.image.width) ≤
    pageWidth - pageMargin ∧
  p.y + (if p.rotated then p.image.width else p.image.height) ≤
    pageHeight - pageMargin

/-- The per-image body of `updateImageSize` once the id matched. -/
def resizeOne (img : PrintImage) (width height : ℚ) (maintainAspect : Bool) :
    PrintImage :=
  if maintainAspect then
    let aspect := img.naturalHeight / img.naturalWidth
    if width ≠ img.width then
      { img with width := width, height := width * aspect }
    else
      { img with width := height / aspect, height := height }
  else
    { img with width := width, height := height }

/-- `updateImageSize` from the source: map over the list, rewriting the
image whose id matches. -/
def updateImageSize (imgs : List PrintImage) (imageId : String)
    (width height : ℚ) (maintainAspect : Bool) : List PrintImage :=
  imgs.map fun img =>
    if img.id ≠ imageId then img else resizeOne img width height maintainAspect

/-- Concrete images used in the closed-form witnesses below. -/
def imgA : PrintImage :=
  { id := "a", width := 50, height := 50, naturalWidth := 500,
    naturalHeight := 500 }

/-- A 100mm x 50mm witness image. -/
def imgB : PrintImage :=
  { id := "b", width := 100, height := 50, naturalWidth := 1000,
    naturalHeight := 500 }

/-- A 300mm x 300mm witness image: too large for A4 in either
orientation. -/
def imgBig : PrintImage :=
  { id := "big", width := 300, height := 300, naturalWidth := 3000,
    naturalHeight := 3000 }

/-- Auxiliary: the image of a placement produced by `passPlace` is an
element of the processed list. -/
theorem passPlace_image_mem (pm im : ℚ) :
    ∀ (rem : List PrintImage) (freeRects : List Rect) (q : PackedImage),
      q ∈ (passPlace pm im rem freeRects).1 → q.image ∈ rem := by
  intro rem
  induction rem with
  | nil => intro freeRects q hq; simp [passPlace] at hq
  | cons img rest ih =>
    intro freeRects q hq
    simp only [passPlace] at hq
    rcases hfp : findPosition freeRects (img.width + im) (img.height + im) with
      _ | pos
    · rw [hfp] at hq
      exact List.mem_cons_of_mem _ (ih _ _ hq)
    · rw [hfp] at hq
      simp only [List.mem_cons] at hq
      rcases hq with hq | hq
      · subst hq; exact List.mem_cons_self _ _
      · exact List.mem_cons_of_mem _ (ih _ _ hq)

/-- Auxiliary: a filter that drops at least one element is strictly
shorter. -/
theorem filter_length_lt {α : Type} (p : α → Bool) :
    ∀ (l : List α) (x : α), x ∈ l → p x = false →
      (l.filter p).length < l.length := by
  intro l
  induction l with
  | nil => intro x hx; simp at hx
  | cons a as ih =>
    intro x hx hpx
    simp only [List.mem_cons] at hx
    rcases hx with rfl | hx
    · simp only [List.filter_cons, hpx]
      exact Nat.lt_succ_of_le (List.length_filter_le _ _)
    · simp only [List.filter_cons]
      rcases hpa : p a with _ | _
      · exact Nat.lt_succ_of_lt (ih x hx hpx)
      · simpa using Nat.succ_lt_succ (ih x hx hpx)

/-- Auxiliary: when a pass places nothing, the post-pass removal keeps the
remaining list unchanged. -/
theorem filter_not_mem_nil (l : List PrintImage) :
    (l.filter fun img => !(([] : List String).contains img.id)) = l := by
  induction l with
  | nil => rfl
  | cons a as ih => simp [List.filter_cons, ih]

/-- The remaining-image list strictly shrinks at every iteration of the
outer loop of `packImages`. -/
theorem packStep_length_lt (aW aH pm im : ℚ) (rem : List PrintImage)
    (h : rem ≠ []) :
    (packStep aW aH pm im rem).2.length < rem.length := by
  simp only [packStep]
  rcases hpl : (passPlace pm im rem [⟨0, 0, aW, aH⟩]).1 with _ | ⟨q, qs⟩
  · simp only [List.length_nil, Nat.lt_irrefl, if_false, List.map_nil,
      Nat.lt_irrefl, reduceIte]
    rw [filter_not_mem_nil]
    rcases rem with _ | ⟨a, as⟩
    · exact absurd rfl h
    · simp
  · simp only [List.length_cons, Nat.succ_pos, if_true, reduceIte]
    have hqmem : q.image ∈ rem := by
      apply passPlace_image_mem pm im rem _ q
      rw [hpl]; exact List.mem_cons_self _ _
    apply filter_length_lt _ rem q.image hqmem
    simp [hpl, List.contains_cons]

/-! ### Geometry lemmas about the packer's rectangle predicates -/

theorem intersects_eq_false_iff (a b : Rect) :
    Rect.intersects a b = false ↔
      b.x + b.width ≤ a.x ∨ a.x + a.width ≤ b.x ∨
      b.y + b.height ≤ a.y ∨ a.y + a.height ≤ b.y := by
  simp only [Rect.intersects, Bool.not_eq_false', Bool.or_eq_true,
    decide_eq_true_eq, or_assoc]

theorem intersects_eq_true_iff (a b : Rect) :
    Rect.intersects a b = true ↔
      a.x < b.x + b.width ∧ b.x < a.x + a.width ∧
      a.y < b.y + b.height ∧ b.y < a.y + a.height := by
  simp only [Rect.intersects, Bool.not_eq_true', Bool.or_eq_false_iff,
    decide_eq_false_iff_not, not_le, and_assoc]

theorem contains_iff (outer inner : Rect) :
    Rect.contains outer inner = true ↔
      outer.x ≤ inner.x ∧ outer.y ≤ inner.y ∧
      inner.x + inner.width ≤ outer.x + outer.width ∧
      inner.y + inner.height ≤ outer.y + outer.height := by
  simp only [Rect.contains, Bool.and_eq_true, decide_eq_true_eq, and_assoc]

theorem contains_refl (r : Rect) : Rect.contains r r = true := by
  rw [contains_iff]
  exact ⟨le_refl _, le_refl _, le_refl _, le_refl _⟩

theorem contains_trans (a b c : Rect) (h1 : Rect.contains a b = true)
    (h2 : Rect.contains b c = true) : Rect.contains a c = true := by
  rw [contains_iff] at h1 h2 ⊢
  obtain ⟨a1, a2, a3, a4⟩ := h1
  obtain ⟨b1, b2, b3, b4⟩ := h2
  exact ⟨by linarith, by linarith, by linarith, by linarith⟩

/-- Disjointness from a rectangle transfers to anything it contains. -/
theorem disj_of_contains (p f s : Rect) (hc : Rect.contains f s = true)
    (hd : Rect.intersects p f = false) : Rect.intersects p s = false := by
  rw [contains_iff] at hc
  rw [intersects_eq_false_iff] at hd ⊢
  obtain ⟨c1, c2, c3, c4⟩ := hc
  rcases hd with h | h | h | h
  · exact Or.inl (by linarith)
  · exact Or.inr (Or.inl (by linarith))
  · exact Or.inr (Or.inr (Or.inl (by linarith)))
  · exact Or.inr (Or.inr (Or.inr (by linarith)))

/-- Enumerate the possible residual strips of `splitFreeRect`. -/
theorem splitFreeRect_cases (placed f s : Rect) (hs : s ∈ splitFreeRect placed f) :
    (f.x < placed.x ∧ s = ⟨f.x, f.y, placed.x - f.x, f.height⟩) ∨
    (placed.x + placed.width < f.x + f.width ∧
      s = ⟨placed.x + placed.width, f.y,
        f.x + f.width - (placed.x + placed.width), f.height⟩) ∨
    (f.y < placed.y ∧ s = ⟨f.x, f.y, f.width, placed.y - f.y⟩) ∨
    (placed.y + placed.height < f.y + f.height ∧
      s = ⟨f.x, placed.y + placed.height, f.width,
        f.y + f.height - (placed.y + placed.height)⟩) := by
  simp only [splitFreeRect, List.mem_append] at hs
  rcases hs with ((hs | hs) | hs) | hs
  · by_cases hc : f.x < placed.x
    · simp only [if_pos hc, List.mem_singleton] at hs
      exact Or.inl ⟨hc, hs⟩
    · simp [if_neg hc] at hs
  · by_cases hc : placed.x + placed.width < f.x + f.width
    · simp only [if_pos hc, List.mem_singleton] at hs
      exact Or.inr (Or.inl ⟨hc, hs⟩)
    · simp [if_neg hc] at hs
  · by_cases hc : f.y < placed.y
    · simp only [if_pos hc, List.mem_singleton] at hs
      exact Or.inr (Or.inr (Or.inl ⟨hc, hs⟩))
    · simp [if_neg hc] at hs
  · by_cases hc : placed.y + placed.height < f.y + f.height
    · simp only [if_pos hc, List.mem_singleton] at hs
      exact Or.inr (Or.inr (Or.inr ⟨hc, hs⟩))
    · simp [if_neg hc] at hs

/-- Every residual strip is disjoint from the placed rectangle. -/
theorem splitFreeRect_disj (placed f s : Rect) (hs : s ∈ splitFreeRect placed f) :
    Rect.intersects placed s = false := by
  rcases splitFreeRect_cases placed f s hs with
    ⟨h, rfl⟩ | ⟨h, rfl⟩ | ⟨h, rfl⟩ | ⟨h, rfl⟩ <;>
    rw [intersects_eq_false_iff] <;> dsimp only
  · exact Or.inl (by linarith)
  · exact Or.inr (Or.inl (by linarith))
  · exact Or.inr (Or.inr (Or.inl (by linarith)))
  · exact Or.inr (Or.inr (Or.inr (by linarith)))

/-- Every residual strip stays inside the free rectangle it was cut from. -/
theorem splitFreeRect_contained (placed f s : Rect)
    (hif : Rect.intersects placed f = true) (hs : s ∈ splitFreeRect placed f) :
    Rect.contains f s = true := by
  rw [intersects_eq_true_iff] at hif
  obtain ⟨h1, h2, h3, h4⟩ := hif
  rcases splitFreeRect_cases placed f s hs with
    ⟨h, rfl⟩ | ⟨h, rfl⟩ | ⟨h, rfl⟩ | ⟨h, rfl⟩ <;>
    · rw [contains_iff]; dsimp only
      refine ⟨by linarith, by linarith, by linarith, by linarith⟩

theorem pruneRects_subset (rects : List Rect) :
    ∀ r ∈ pruneRects rects, r ∈ rects := by
  intro r hr
  simp only [pruneRects, List.mem_map, List.mem_filter] at hr
  obtain ⟨⟨i, r'⟩, ⟨hmem, _⟩, rfl⟩ := hr
  have := List.mem_enum_iff_getElem?.mp hmem
  exact List.getElem?_mem this

/-- Every rectangle surviving `place` is either an untouched old free
rectangle (disjoint from the placed one) or a strip cut from an old free
rectangle that the placed rectangle overlapped. -/
theorem mem_placeRects (freeRects : List Rect) (R r : Rect)
    (h : r ∈ placeRects freeRects R) :
    (r ∈ freeRects ∧ Rect.intersects R r = false) ∨
    (∃ f ∈ freeRects, Rect.intersects R f = true ∧ r ∈ splitFreeRect R f) := by
  have h' := pruneRects_subset _ r h
  simp only [List.mem_flatten, List.mem_map] at h'
  obtain ⟨l, ⟨f, hf, rfl⟩, hrl⟩ := h'
  rcases hint : Rect.intersects R f with _ | _
  · simp only [hint, Bool.false_eq_true, if_false] at hrl
    rcases List.mem_singleton.mp hrl with rfl
    exact Or.inl ⟨hf, hint⟩
  · simp only [hint, if_true] at hrl
    exact Or.inr ⟨f, hf, hint, hrl⟩

/-! ### Specification of `findPosition` -/

theorem tryCandidate_cases (best : Option (ℚ × Position)) (s : ℚ) (p : Position) :
    tryCandidate best s p = best ∨ tryCandidate best s p = some (s, p) := by
  unfold tryCandidate
  rcases best with _ | ⟨b, q⟩
  · exact Or.inr rfl
  · by_cases hlt : s < b
    · exact Or.inr (by simp [hlt])
    · exact Or.inl (by simp [hlt])

theorem findPosNormal_ok (L : List Rect) (w h : ℚ) (best : Option (ℚ × Position))
    (r : Rect) (hr : r ∈ L)
    (hbest : ∀ s p, best = some (s, p) → posOk L w h p) :
    ∀ s p, findPosNormal w h best r = some (s, p) → posOk L w h p := by
  intro s p heq
  unfold findPosNormal at heq
  by_cases hc : w ≤ r.width ∧ h ≤ r.height
  · rw [if_pos hc] at heq
    rcases tryCandidate_cases best (min (r.width - w) (r.height - h))
      ⟨r.x, r.y, false⟩ with htc | htc
    · exact hbest s p (htc ▸ heq)
    · rw [htc] at heq
      obtain ⟨-, hp⟩ := Prod.mk.injEq .. ▸ Option.some.injEq .. ▸ heq
      exact ⟨r, hr, by simp [← hp, hc.1, hc.2]⟩
  · rw [if_neg hc] at heq
    exact hbest s p heq

theorem findPosAux_ok (L : List Rect) (w h : ℚ) (best : Option (ℚ × Position))
    (r : Rect) (hr : r ∈ L)
    (hbest : ∀ s p, best = some (s, p) → posOk L w h p) :
    ∀ s p, findPosAux w h best r = some (s, p) → posOk L w h p := by
  intro s p heq
  unfold findPosAux at heq
  by_cases hc : h ≤ r.width ∧ w ≤ r.height
  · rw [if_pos hc] at heq
    rcases tryCandidate_cases (findPosNormal w h best r)
      (min (r.width - h) (r.height - w)) ⟨r.x, r.y, true⟩ with htc | htc
    · exact findPosNormal_ok L w h best r hr hbest s p (htc ▸ heq)
    · rw [htc] at heq
      obtain ⟨-, hp⟩ := Prod.mk.injEq .. ▸ Option.some.injEq .. ▸ heq
      exact ⟨r, hr, by simp [← hp, hc.1, hc.2]⟩
  · rw [if_neg hc] at heq
    exact findPosNormal_ok L w h best r hr hbest s p heq

theorem foldl_findPosAux_ok (w h : ℚ) (L : List Rect) :
    ∀ (l : List Rect) (best : Option (ℚ × Position)),
      (∀ x ∈ l, x ∈ L) →
      (∀ s p, best = some (s, p) → posOk L w h p) →
      ∀ s p, l.foldl (findPosAux w h) best = some (s, p) → posOk L w h p := by
  intro l
  induction l with
  | nil => intro best _ hbest s p hf; exact hbest s p hf
  | cons r rs ih =>
    intro best hsub hbest s p hf
    simp only [List.foldl_cons] at hf
    exact ih (findPosAux w h best r)
      (fun x hx => hsub x (List.mem_cons_of_mem _ hx))
      (findPosAux_ok L w h best r (hsub r (List.mem_cons_self _ _)) hbest)
      s p hf

/-- A successful `findPosition` names the corner of one of the free
rectangles, with a fitting orientation. -/
theorem findPosition_spec (L : List Rect) (w h : ℚ) (pos : Position)
    (hf : findPosition L w h = some pos) : posOk L w h pos := by
  unfold findPosition at hf
  rcases hfold : L.foldl (findPosAux w h) none with _ | sp
  · rw [hfold] at hf; simp at hf
  · rw [hfold] at hf
    obtain ⟨s', p'⟩ := sp
    simp only [Option.map_some'] at hf
    obtain rfl : p' = pos := Option.some.inj hf
    exact foldl_findPosAux_ok w h L L none (fun x hx => hx) (by simp) s' p' hfold

/-! ### The packer invariant carried through a placement pass -/

/-- Invariant of the placement pass of one page: relative to a fixed
`bound` (the printable area) and a list `P` of rectangles already
committed, every free rectangle is inside the bound and disjoint from all
committed rectangles; then every image the pass places lands inside the
bound, away from `P`, and the placed boxes are pairwise disjoint. -/
theorem passPlace_inv (pm im : ℚ) (bound : Rect) :
    ∀ (rem : List PrintImage) (freeRects : List Rect) (P : List Rect),
      (∀ f ∈ freeRects, Rect.contains bound f = true) →
      (∀ f ∈ freeRects, ∀ p ∈ P, Rect.intersects p f = false) →
      (∀ q ∈ (passPlace pm im rem freeRects).1,
          Rect.contains bound (packerBox pm im q) = true ∧
          ∀ p ∈ P, Rect.intersects p (packerBox pm im q) = false) ∧
      ((passPlace pm im rem freeRects).1.map (packerBox pm im)).Pairwise
        (fun a b => Rect.intersects a b = false) := by
  intro rem
  induction rem with
  | nil => intro fr P hB hD; simp [passPlace]
  | cons img rest ih =>
    intro fr P hB hD
    simp only [passPlace]
    rcases hfp : findPosition fr (img.width + im) (img.height + im) with _ | pos
    · exact ih fr P hB hD
    · simp only
      set R : Rect :=
        ⟨pos.x, pos.y,
         if pos.rotated then img.height + im else img.width + im,
         if pos.rotated then img.width + im else img.height + im⟩ with hR
      obtain ⟨f0, hf0, hx0, hy0, horient⟩ := findPosition_spec _ _ _ _ hfp
      have hcontR : Rect.contains f0 R = true := by
        rw [contains_iff]
        rcases horient with ⟨hrot, h1, h2⟩ | ⟨hrot, h1, h2⟩ <;>
          simp only [hR, hrot, if_true, if_false, Bool.false_eq_true] <;>
          exact ⟨le_of_eq hx0.symm, le_of_eq hy0.symm,
            by rw [hx0]; linarith, by rw [hy0]; linarith⟩
      have hboundR : Rect.contains bound R = true :=
        contains_trans _ _ _ (hB f0 hf0) hcontR
      have hdisjPR : ∀ p ∈ P, Rect.intersects p R = false := fun p hp =>
        disj_of_contains p f0 R hcontR (hD f0 hf0 p hp)
      have hB' : ∀ f' ∈ placeRects fr R, Rect.contains bound f' = true := by
        intro f' hf'
        rcases mem_placeRects fr R f' hf' with ⟨hmem, -⟩ | ⟨f, hf, hint, hsplit⟩
        · exact hB f' hmem
        · exact contains_trans _ _ _ (hB f hf)
            (splitFreeRect_contained R f f' hint hsplit)
      have hD' : ∀ f' ∈ placeRects fr R, ∀ p ∈ P ++ [R],
          Rect.intersects p f' = false := by
        intro f' hf' p hp
        rcases List.mem_append.mp hp with hp | hp
        · rcases mem_placeRects fr R f' hf' with ⟨hmem, -⟩ |
            ⟨f, hf, hint, hsplit⟩
          · exact hD f' hmem p hp
          · exact disj_of_contains p f f'
              (splitFreeRect_contained R f f' hint hsplit) (hD f hf p hp)
        · obtain rfl := List.mem_singleton.mp hp
          rcases mem_placeRects fr R f' hf' with ⟨-, hdisj⟩ |
            ⟨f, hf, hint, hsplit⟩
          · exact hdisj
          · exact splitFreeRect_disj R f f' hsplit
      obtain ⟨ih1, ih2⟩ := ih (placeRects fr R) (P ++ [R]) hB' hD'
      have hbox : packerBox pm im
          { image := img, x := pos.x + pm, y := pos.y + pm,
            rotated := pos.rotated } = R := by
        simp only [packerBox, hR, add_sub_cancel_right]
      constructor
      · intro q hq
        rcases List.mem_cons.mp hq with rfl | hq
        · exact ⟨hbox ▸ hboundR, fun p hp => hbox ▸ hdisjPR p hp⟩
        · obtain ⟨hq1, hq2⟩ := ih1 q hq
          exact ⟨hq1, fun p hp => hq2 p (List.mem_append_left _ hp)⟩
      · rw [List.map_cons]
        refine List.Pairwise.cons ?_ ih2
        intro b hb
        obtain ⟨q', hq', rfl⟩ := List.mem_map.mp hb
        have := (ih1 q' hq').2 R (List.mem_append_right _ (List.mem_singleton.mpr rfl))
        exact hbox ▸ this

/-! ### The outer loop: fuel irrelevance and unfolding equations -/

/-- As long as the fuel covers the number of remaining images, its exact
value does not matter: the loop always stops because the remaining list
empties, never because fuel runs out. -/
theorem packLoopFuel_irrel (aW aH pm im : ℚ) :
    ∀ (fuel fuel' : Nat) (rem : List PrintImage),
      rem.length ≤ fuel → rem.length ≤ fuel' →
      packLoopFuel aW aH pm im fuel rem = packLoopFuel aW aH pm im fuel' rem := by
  intro fuel
  induction fuel with
  | zero =>
    intro fuel' rem hf hf'
    obtain rfl := List.length_eq_zero.mp (Nat.le_zero.mp hf)
    cases fuel' <;> rfl
  | succ fuel ih =>
    intro fuel' rem hf hf'
    rcases rem with _ | ⟨img, rest⟩
    · cases fuel' <;> rfl
    · rcases fuel' with _ | fuel'
      · exact absurd hf' (by simp)
      · simp only [packLoopFuel]
        congr 1
        have hlt := packStep_length_lt aW aH pm im (img :: rest) (by simp)
        refine ih fuel' _ ?_ ?_ <;>
          simp only [List.length_cons] at hf hf' hlt <;> omega

theorem packLoop_nil (aW aH pm im : ℚ) : packLoop aW aH pm im [] = [] := rfl

/-- The loop really iterates: one `packStep`, then the loop on what is
left. -/
theorem packLoop_cons (aW aH pm im : ℚ) (img : PrintImage)
    (rest : List PrintImage) :
    packLoop aW aH pm im (img :: rest) =
      (packStep aW aH pm im (img :: rest)).1 ::
        packLoop aW aH pm im (packStep aW aH pm im (img :: rest)).2 := by
  show packLoopFuel aW aH pm im (rest.length + 1) _ = _
  simp only [packLoopFuel]
  congr 1
  have hlt := packStep_length_lt aW aH pm im (img :: rest) (by simp)
  exact packLoopFuel_irrel aW aH pm im rest.length _ _
    (by simp only [List.length_cons] at hlt; omega) (le_refl _)

/-! ### Case lemmas for `packStep` -/

theorem packStep_nil (aW aH pm im : ℚ) :
    packStep aW aH pm im [] = (⟨[]⟩, []) := rfl

/-- When the pass placed nothing on a nonempty remaining list, `packStep`
is the oversized-image fallback: the head goes to `(pm, pm)`, rotated only
if rotation alone makes it fit, and the page closes with just that image. -/
theorem packStep_fallback_eq (aW aH pm im : ℚ) (img : PrintImage)
    (rest : List PrintImage)
    (hpl : (passPlace pm im (img :: rest) [⟨0, 0, aW, aH⟩]).1 = []) :
    packStep aW aH pm im (img :: rest) =
      (⟨[{ image := img, x := pm, y := pm,
           rotated := !(decide (img.width ≤ aW) && decide (img.height ≤ aH)) &&
             (decide (img.height ≤ aW) && decide (img.width ≤ aH)) }]⟩,
       rest) := by
  simp only [packStep, hpl, List.map_nil, List.length_nil, lt_self_iff_false,
    if_false, filter_not_mem_nil]

/-- When the pass placed at least one image, `packStep` commits exactly
the pass's placements and filters them out of the remaining list. -/
theorem packStep_normal_eq (aW aH pm im : ℚ) (rem : List PrintImage)
    (q0 : PackedImage) (qs : List PackedImage)
    (hpl : (passPlace pm im rem [⟨0, 0, aW, aH⟩]).1 = q0 :: qs) :
    packStep aW aH pm im rem =
      (⟨q0 :: qs⟩, rem.filter fun img =>
        !(((q0 :: qs).map fun p => p.image.id).contains img.id)) := by
  simp only [packStep, hpl, List.length_cons, if_pos (Nat.succ_pos qs.length)]

/-- Disjointness of the packer-coordinate boxes transfers to the
page-coordinate margin-inflated boxes (they differ by the same
translation). -/
theorem inflated_disj_of_packerBox (pm im : ℚ) (p q : PackedImage)
    (h : Rect.intersects (packerBox pm im p) (packerBox pm im q) = false) :
    Rect.intersects (inflatedRect im p) (inflatedRect im q) = false := by
  rw [intersects_eq_false_iff] at h ⊢
  simp only [inflatedRect, packerBox] at h ⊢
  rcases h with h | h | h | h
  · exact Or.inl (by linarith)
  · exact Or.inr (Or.inl (by linarith))
  · exact Or.inr (Or.inr (Or.inl (by linarith)))
  · exact Or.inr (Or.inr (Or.inr (by linarith)))

/-- The instantiated packer invariant for one page of `packStep`. -/
theorem packStep_inv (aW aH pm im : ℚ) (rem : List PrintImage) :
    (∀ q ∈ (passPlace pm im rem [⟨0, 0, aW, aH⟩]).1,
        Rect.contains ⟨0, 0, aW, aH⟩ (packerBox pm im q) = true) ∧
    ((passPlace pm im rem [⟨0, 0, aW, aH⟩]).1.map (packerBox pm im)).Pairwise
      (fun a b => Rect.intersects a b = false) := by
  have hinv := passPlace_inv pm im ⟨0, 0, aW, aH⟩ rem [⟨0, 0, aW, aH⟩] []
    (fun f hf => by rw [List.mem_singleton.mp hf]; exact contains_refl _)
    (fun f _ p hp => absurd hp (List.not_mem_nil p))
  exact ⟨fun q hq => (hinv.1 q hq).1, hinv.2⟩

/-- Every page a `packStep` emits carries pairwise non-intersecting
margin-inflated boxes. -/
theorem packStep_no_overlap (aW aH pm im : ℚ) (rem : List PrintImage) :
    (packStep aW aH pm im rem).1.images.Pairwise fun p q =>
      Rect.intersects (inflatedRect im p) (inflatedRect im q) = false := by
  rcases hpl : (passPlace pm im rem [⟨0, 0, aW, aH⟩]).1 with _ | ⟨q0, qs⟩
  · rcases rem with _ | ⟨a, as⟩
    · rw [packStep_nil]; exact List.Pairwise.nil
    · rw [packStep_fallback_eq aW aH pm im a as hpl]
      simp
  · rw [packStep_normal_eq aW aH pm im rem q0 qs hpl]
    have hpair := (packStep_inv aW aH pm im rem).2
    rw [hpl, List.pairwise_map] at hpair
    exact hpair.imp fun hab => inflated_disj_of_packerBox pm im _ _ hab

/-- Every placement a `packStep` emits is inside the printable area,
except the fallback placement, which is alone on its page and anchored at
`(pm, pm)`. -/
theorem packStep_containment (aW aH pm im : ℚ) (him : 0 ≤ im)
    (rem : List PrintImage) :
    ∀ p ∈ (packStep aW aH pm im rem).1.images,
      (pm ≤ p.x ∧ pm ≤ p.y ∧
        p.x + (if p.rotated then p.image.height else p.image.width) ≤ pm + aW ∧
        p.y + (if p.rotated then p.image.width else p.image.height) ≤ pm + aH) ∨
      (p.x = pm ∧ p.y = pm ∧ (packStep aW aH pm im rem).1.images = [p]) := by
  rcases hpl : (passPlace pm im rem [⟨0, 0, aW, aH⟩]).1 with _ | ⟨q0, qs⟩
  · rcases rem with _ | ⟨a, as⟩
    · rw [packStep_nil]; intro p hp; exact absurd hp (List.not_mem_nil p)
    · rw [packStep_fallback_eq aW aH pm im a as hpl]
      intro p hp
      obtain rfl := List.mem_singleton.mp hp
      exact Or.inr ⟨rfl, rfl, rfl⟩
  · rw [packStep_normal_eq aW aH pm im rem q0 qs hpl]
    intro p hp
    left
    have hcont := (packStep_inv aW aH pm im rem).1 p (by rw [hpl]; exact hp)
    rw [contains_iff] at hcont
    simp only [packerBox] at hcont
    obtain ⟨c1, c2, c3, c4⟩ := hcont
    rcases hrot : p.rotated with _ | _ <;>
      simp only [hrot, if_true, if_false, Bool.false_eq_true] at c3 c4 ⊢ <;>
      exact ⟨by linarith, by linarith, by linarith, by linarith⟩

/-- A `packStep` on a nonempty remaining list never emits an empty page. -/
theorem packStep_page_ne_nil (aW aH pm im : ℚ) (rem : List PrintImage)
    (h : rem ≠ []) : (packStep aW aH pm im rem).1.images ≠ [] := by
  rcases hpl : (passPlace pm im rem [⟨0, 0, aW, aH⟩]).1 with _ | ⟨q0, qs⟩
  · rcases rem with _ | ⟨a, as⟩
    · exact absurd rfl h
    · rw [packStep_fallback_eq aW aH pm im a as hpl]; simp
  · rw [packStep_normal_eq aW aH pm im rem q0 qs hpl]; simp

/-- Every page of the loop's output is the page of a `packStep` on some
nonempty remaining list. -/
theorem packLoop_mem (aW aH pm im : ℚ) :
    ∀ (n : Nat) (rem : List PrintImage), rem.length ≤ n →
      ∀ page ∈ packLoop aW aH pm im rem,
        ∃ rem', rem' ≠ [] ∧ page = (packStep aW aH pm im rem').1 := by
  intro n
  induction n with
  | zero =>
    intro rem hlen page hpage
    obtain rfl := List.length_eq_zero.mp (Nat.le_zero.mp hlen)
    exact absurd hpage (List.not_mem_nil page)
  | succ n ihn =>
    intro rem hlen page hpage
    rcases rem with _ | ⟨img, rest⟩
    · exact absurd hpage (List.not_mem_nil page)
    · rw [packLoop_cons] at hpage
      rcases List.mem_cons.mp hpage with rfl | hmem
      · exact ⟨img :: rest, by simp, rfl⟩
      · refine ihn _ ?_ page hmem
        have := packStep_length_lt aW aH pm im (img :: rest) (by simp)
        simp only [List.length_cons] at this hlen
        omega

/-! ### Completeness: placed images against remaining images -/

/-- The images a pass places form a sublist of the remaining list, in
order. -/
theorem passPlace_images_sublist (pm im : ℚ) :
    ∀ (rem : List PrintImage) (freeRects : List Rect),
      ((passPlace pm im rem freeRects).1.map fun p => p.image).Sublist rem := by
  intro rem
  induction rem with
  | nil => intro fr; simp [passPlace]
  | cons img rest ih =>
    intro fr
    simp only [passPlace]
    rcases hfp : findPosition fr (img.width + im) (img.height + im) with _ | pos
    · exact (ih fr).cons img
    · simp only [List.map_cons]
      exact (ih _).cons₂ img

/-- Splitting a list along a sublist `S` with distinct ids: `S` together
with the elements whose id is not in `S` is a permutation of the list. -/
theorem sublist_filter_perm :
    ∀ (S rem : List PrintImage), S.Sublist rem →
      ((rem.map fun i => i.id).Nodup) →
      (S ++ rem.filter fun x =>
        !((S.map fun i => i.id).contains x.id)).Perm rem := by
  intro S rem hsub
  induction hsub with
  | slnil => intro _; simp
  | @cons S l a hsub ih =>
    intro hnd
    simp only [List.map_cons, List.nodup_cons, List.mem_map] at hnd
    obtain ⟨hna, hnd⟩ := hnd
    have hpa : (!((S.map fun i => i.id).contains a.id)) = true := by
      simp only [Bool.not_eq_true', List.contains_eq_any_beq, List.any_eq_false]
      intro x hx
      obtain ⟨i, hi, rfl⟩ := List.mem_map.mp hx
      have hil : i ∈ l := hsub.mem hi
      simp only [beq_iff_eq]
      intro hcontra
      exact hna ⟨i, hil, hcontra.symm⟩
    rw [List.filter_cons, if_pos hpa]
    exact List.perm_middle.trans ((ih hnd).cons a)
  | @cons₂ S l a hsub ih =>
    intro hnd
    simp only [List.map_cons, List.nodup_cons, List.mem_map] at hnd
    obtain ⟨hna, hnd⟩ := hnd
    have hpa : (!(((a :: S).map fun i => i.id).contains a.id)) = false := by
      simp [List.contains_cons]
    rw [List.filter_cons, if_neg (by rw [hpa]; exact Bool.false_ne_true)]
    have hcongr : (l.filter fun x =>
        !(((a :: S).map fun i => i.id).contains x.id)) =
        l.filter fun x => !((S.map fun i => i.id).contains x.id) := by
      apply List.filter_congr
      intro x hx
      have hne : (x.id == a.id) = false :=
        beq_eq_false_iff_ne.mpr fun hcontra => hna ⟨x, hx, hcontra⟩
      simp only [List.map_cons, List.contains_cons, hne, Bool.false_or]
    rw [hcongr, List.cons_append]
    exact ((ih hnd).cons a)

/-- One `packStep` conserves images: the page's images followed by the new
remaining list is a permutation of the old remaining list (distinct ids
assumed, as every real `PrintImage` carries a fresh UUID). -/
theorem packStep_perm (aW aH pm im : ℚ) (rem : List PrintImage)
    (hne : rem ≠ []) (hnd : (rem.map fun i => i.id).Nodup) :
    (((packStep aW aH pm im rem).1.images.map fun p => p.image) ++
      (packStep aW aH pm im rem).2).Perm rem := by
  rcases hpl : (passPlace pm im rem [⟨0, 0, aW, aH⟩]).1 with _ | ⟨q0, qs⟩
  · rcases rem with _ | ⟨a, as⟩
    · exact absurd rfl hne
    · rw [packStep_fallback_eq aW aH pm im a as hpl]
      simp
  · rw [packStep_normal_eq aW aH pm im rem q0 qs hpl]
    have hsub : ((q0 :: qs).map fun p => p.image).Sublist rem := by
      rw [← hpl]; exact passPlace_images_sublist pm im rem _
    have hperm := sublist_filter_perm ((q0 :: qs).map fun p => p.image) rem
      hsub hnd
    simpa [List.map_map, Function.comp_def] using hperm

/-- The new remaining list is a sublist of the old one. -/
theorem packStep_rem_sublist (aW aH pm im : ℚ) (rem : List PrintImage) :
    (packStep aW aH pm im rem).2.Sublist rem := by
  rcases hpl : (passPlace pm im rem [⟨0, 0, aW, aH⟩]).1 with _ | ⟨q0, qs⟩
  · rcases rem with _ | ⟨a, as⟩
    · rw [packStep_nil]
    · rw [packStep_fallback_eq aW aH pm im a as hpl]
      exact List.sublist_cons_self a as
  · rw [packStep_normal_eq aW aH pm im rem q0 qs hpl]
    exact List.filter_sublist rem

/-- Image conservation for the whole loop. -/
theorem packLoop_perm (aW aH pm im : ℚ) :
    ∀ (n : Nat) (rem : List PrintImage), rem.length ≤ n →
      (rem.map fun i => i.id).Nodup →
      ((allPlaced (packLoop aW aH pm im rem)).map fun p => p.image).Perm rem := by
  intro n
  induction n with
  | zero =>
    intro rem hlen _
    obtain rfl := List.length_eq_zero.mp (Nat.le_zero.mp hlen)
    simp [packLoop_nil, allPlaced]
  | succ n ihn =>
    intro rem hlen hnd
    rcases rem with _ | ⟨img, rest⟩
    · simp [packLoop_nil, allPlaced]
    · rw [packLoop_cons]
      simp only [allPlaced, List.map_append]
      have hne : (img :: rest) ≠ [] := by simp
      have hstep := packStep_perm aW aH pm im (img :: rest) hne hnd
      have hsub := packStep_rem_sublist aW aH pm im (img :: rest)
      have hnd' : ((packStep aW aH pm im (img :: rest)).2.map
          fun i => i.id).Nodup := hnd.sublist (hsub.map _)
      have hrec := ihn (packStep aW aH pm im (img :: rest)).2
        (by
          have := packStep_length_lt aW aH pm im (img :: rest) hne
          simp only [List.length_cons] at this hlen
          omega) hnd'
      exact (hrec.append_left _).trans hstep

/-! ### The claims -/

/-- C1: for every input image list (with distinct ids, as the source
creates them via `crypto.randomUUID()`) and page configuration, every
input image id appears in exactly one placement across the pages returned
by `packImages`: no image is placed twice and none is silently dropped. -/
theorem packImages_complete (images : List PrintImage) (pw ph pm im : ℚ)
    (hnd : (images.map fun i => i.id).Nodup) :
    ((allPlaced (packImages images pw ph pm im)).map fun p => p.image.id).Perm
      (images.map fun i => i.id) ∧
    ∀ i ∈ images,
      ((allPlaced (packImages images pw ph pm im)).map
        fun p => p.image.id).count i.id = 1 := by
  have hsort : (images.insertionSort areaGe).Perm images :=
    List.perm_insertionSort areaGe images
  have hndsort : ((images.insertionSort areaGe).map fun i => i.id).Nodup :=
    ((hsort.map _).nodup_iff).mpr hnd
  have hloop := packLoop_perm (pw - 2 * pm) (ph - 2 * pm) pm im
    (images.insertionSort areaGe).length (images.insertionSort areaGe)
    (le_refl _) hndsort
  have hperm : ((allPlaced (packImages images pw ph pm im)).map
      fun p => p.image.id).Perm (images.map fun i => i.id) := by
    simp only [packImages]
    have := (hloop.trans hsort).map (fun i : PrintImage => i.id)
    simpa [List.map_map, Function.comp_def] using this
  refine ⟨hperm, fun i hi => ?_⟩
  rw [hperm.count_eq]
  exact List.count_eq_one_of_mem hnd (List.mem_map.mpr ⟨i, hi, rfl⟩)

unseal Rat.mul Rat.inv Rat.add Rat.sub in
/-- Witness for C1 at a concrete two-image input. -/
theorem packImages_complete_witness :
    (([imgA, imgB].map fun i => i.id).Nodup) ∧
    ((allPlaced (packImages [imgA, imgB] 210 297 10 5)).map
      fun p => p.image.id).Perm ([imgA, imgB].map fun i => i.id) :=
  ⟨by decide, (packImages_complete [imgA, imgB] 210 297 10 5 (by decide)).1⟩

/-- C2: on every page returned by `packImages`, the margin-inflated
bounding boxes of any two distinct placements do not intersect. -/
theorem packImages_no_overlap (images : List PrintImage) (pw ph pm im : ℚ)
    (page : Page) (hpage : page ∈ packImages images pw ph pm im) :
    page.images.Pairwise fun p q =>
      Rect.intersects (inflatedRect im p) (inflatedRect im q) = false := by
  simp only [packImages] at hpage
  obtain ⟨rem', -, rfl⟩ := packLoop_mem (pw - 2 * pm) (ph - 2 * pm) pm im
    (images.insertionSort areaGe).length _ (le_refl _) page hpage
  exact packStep_no_overlap _ _ _ _ _

unseal Rat.mul Rat.inv Rat.add Rat.sub in
/-- Witness for C2 at a concrete two-image page. -/
theorem packImages_no_overlap_witness :
    ((⟨[{ image := imgB, x := 10, y := 10, rotated := false },
        { image := imgA, x := 115, y := 10, rotated := false }]⟩ : Page) ∈
      packImages [imgA, imgB] 210 297 10 5) ∧
    (⟨[{ image := imgB, x := 10, y := 10, rotated := false },
       { image := imgA, x := 115, y := 10, rotated := false }]⟩ : Page).images.Pairwise
      (fun p q => Rect.intersects (inflatedRect 5 p) (inflatedRect 5 q) = false) :=
  ⟨by decide, packImages_no_overlap [imgA, imgB] 210 297 10 5 _ (by decide)⟩

/-- C3: every placement returned by `packImages` has its bounding box
inside `[pageMargin, pageDim − pageMargin]` on both axes, except that a
placement may instead be anchored at `(pageMargin, pageMargin)` alone on
its page — the oversized-image fallback — regardless of overflow. -/
theorem packImages_containment (images : List PrintImage) (pw ph pm im : ℚ)
    (him : 0 ≤ im) (page : Page)
    (hpage : page ∈ packImages images pw ph pm im)
    (p : PackedImage) (hp : p ∈ page.images) :
    inBounds pw ph pm p ∨ (p.x = pm ∧ p.y = pm ∧ page.images = [p]) := by
  simp only [packImages] at hpage
  obtain ⟨rem', -, rfl⟩ := packLoop_mem (pw - 2 * pm) (ph - 2 * pm) pm im
    (images.insertionSort areaGe).length _ (le_refl _) page hpage
  rcases packStep_containment (pw - 2 * pm) (ph - 2 * pm) pm im him rem' p hp
    with ⟨h1, h2, h3, h4⟩ | hfb
  · left
    unfold inBounds
    exact ⟨h1, h2, by linarith, by linarith⟩
  · right
    exact hfb

unseal Rat.mul Rat.inv Rat.add Rat.sub in
/-- Witness for C3 at the oversized-image fallback. -/
theorem packImages_containment_witness :
    inBounds 210 297 10 { image := imgBig, x := 10, y := 10, rotated := false } ∨
    (({ image := imgBig, x := 10, y := 10, rotated := false } : PackedImage).x = 10 ∧
     ({ image := imgBig, x := 10, y := 10, rotated := false } : PackedImage).y = 10 ∧
     (⟨[{ image := imgBig, x := 10, y := 10, rotated := false }]⟩ : Page).images =
       [{ image := imgBig, x := 10, y := 10, rotated := false }]) :=
  packImages_containment [imgBig] 210 297 10 5 (by norm_num)
    ⟨[{ image := imgBig, x := 10, y := 10, rotated := false }]⟩ (by decide)
    { image := imgBig, x := 10, y := 10, rotated := false } (by decide)

/-- C4 (code bug): at `imageMarginMm = 0` the source still emits cut
marks — the PDF/print renderers draw eight segments of length 1 mm and the
canvas renderer draws 2 px — because the computed length is floored at
`max(1, ·)` (resp. `max(2, ·)`), which keeps it above the emission
threshold (0.5 mm resp. 1 px) for every margin; the claimed formula
`min(fixedDefaultLength, max(0, margin/2 − clearance))` yields 0 there and
asks for no marks at all. -/
theorem cutMarks_zero_margin_emitted :
    pdfMarkerLen 0 = 1 ∧ pdfMarksDrawn 0 = true ∧
    canvasMarkerLen 0 MM_TO_PX = 2 ∧ canvasMarksDrawn 0 MM_TO_PX = true ∧
    specCutMarkLen CUT_MARKER_LENGTH (1 / 2) 0 = 0 := by
  refine ⟨?_, ?_, ?_, ?_, ?_⟩ <;>
    norm_num [pdfMarkerLen, pdfMarksDrawn, canvasMarkerLen, canvasMaxMarkerLen,
      canvasMarksDrawn, specCutMarkLen, CUT_MARKER_LENGTH, MM_TO_PX]

/-- C5: when a packing pass places zero images while images remain, the
head of the remaining sorted list is placed anyway at
`(pageMargin, pageMargin)` — rotated exactly when the rotated orientation
fits the printable area and the unrotated one does not (unrotated when
neither fits) — it is removed from the remaining list, and the page is
closed with only that image; no oversized image is dropped and no error
path exists. -/
theorem packLoop_fallback (aW aH pm im : ℚ) (img : PrintImage)
    (rest : List PrintImage)
    (hfail : (passPlace pm im (img :: rest) [⟨0, 0, aW, aH⟩]).1 = []) :
    packLoop aW aH pm im (img :: rest) =
      (⟨[{ image := img, x := pm, y := pm,
           rotated := !(decide (img.width ≤ aW) && decide (img.height ≤ aH)) &&
             (decide (img.height ≤ aW) && decide (img.width ≤ aH)) }]⟩ : Page) ::
        packLoop aW aH pm im rest := by
  rw [packLoop_cons, packStep_fallback_eq aW aH pm im img rest hfail]

unseal Rat.mul Rat.inv Rat.add Rat.sub in
/-- Witness for C5 at the 300mm x 300mm image on A4. -/
theorem packLoop_fallback_witness :
    (passPlace 10 5 [imgBig] [⟨0, 0, 190, 277⟩]).1 = [] ∧
    packLoop 190 277 10 5 [imgBig] =
      (⟨[{ image := imgBig, x := 10, y := 10,
           rotated := !(decide (imgBig.width ≤ (190 : ℚ)) &&
               decide (imgBig.height ≤ (277 : ℚ))) &&
             (decide (imgBig.height ≤ (190 : ℚ)) &&
               decide (imgBig.width ≤ (277 : ℚ))) }]⟩ : Page) ::
        packLoop 190 277 10 5 [] :=
  ⟨by decide, packLoop_fallback 190 277 10 5 imgBig [] (by decide)⟩

/-- C6: `packImages` terminates on every input: each iteration of the
outer loop — a `packStep` — strictly decreases the number of remaining
images (it either places at least one image normally or consumes exactly
one through the fallback), and the loop indeed performs that iteration
and continues on the smaller list. -/
theorem packImages_terminates (aW aH pm im : ℚ) (rem : List PrintImage)
    (h : rem ≠ []) :
    (packStep aW aH pm im rem).2.length < rem.length ∧
    packLoop aW aH pm im rem =
      (packStep aW aH pm im rem).1 ::
        packLoop aW aH pm im (packStep aW aH pm im rem).2 := by
  rcases rem with _ | ⟨img, rest⟩
  · exact absurd rfl h
  · exact ⟨packStep_length_lt aW aH pm im _ h, packLoop_cons aW aH pm im img rest⟩

unseal Rat.mul Rat.inv Rat.add Rat.sub in
/-- Witness for C6 at a concrete one-image input. -/
theorem packImages_terminates_witness :
    (packStep 190 277 10 5 [imgA]).2.length < ([imgA] : List PrintImage).length ∧
    packLoop 190 277 10 5 [imgA] =
      (packStep 190 277 10 5 [imgA]).1 ::
        packLoop 190 277 10 5 (packStep 190 277 10 5 [imgA]).2 :=
  packImages_terminates 190 277 10 5 [imgA] (by decide)

/-- C7: `packImages` is deterministic — two calls with identical input
(the same image list in the same order and the same page configuration)
return identical page lists; the embedding is a pure function, as the
source reads nothing besides its arguments. -/
theorem packImages_deterministic (images1 images2 : List PrintImage)
    (pw1 pw2 ph1 ph2 pm1 pm2 im1 im2 : ℚ)
    (h : images1 = images2 ∧ pw1 = pw2 ∧ ph1 = ph2 ∧ pm1 = pm2 ∧ im1 = im2) :
    packImages images1 pw1 ph1 pm1 im1 = packImages images2 pw2 ph2 pm2 im2 := by
  obtain ⟨rfl, rfl, rfl, rfl, rfl⟩ := h
  rfl

/-- Witness for C7. -/
theorem packImages_deterministic_witness :
    packImages [imgA] 210 297 10 5 = packImages [imgA] 210 297 10 5 :=
  packImages_deterministic [imgA] [imgA] 210 210 297 297 10 10 5 5
    ⟨rfl, rfl, rfl, rfl, rfl⟩

/-- C8: aspect-locked resize — with `maintainAspect` true, when the
supplied width differs from the image's current width the stored height
becomes `width · naturalHeight/naturalWidth`, and otherwise the stored
width becomes `height ÷ (naturalHeight/naturalWidth)`; `updateImageSize`
rewrites exactly the matching image this way. -/
theorem updateImageSize_aspect (img : PrintImage) (w h : ℚ) :
    (w ≠ img.width →
      (resizeOne img w h true).width = w ∧
      (resizeOne img w h true).height =
        w * (img.naturalHeight / img.naturalWidth)) ∧
    (w = img.width →
      (resizeOne img w h true).height = h ∧
      (resizeOne img w h true).width =
        h / (img.naturalHeight / img.naturalWidth)) ∧
    updateImageSize [img] img.id w h true = [resizeOne img w h true] := by
  refine ⟨fun hne => ?_, fun heq => ?_, ?_⟩
  · simp [resizeOne, hne]
  · simp [resizeOne, heq]
  · simp [updateImageSize]

/-- Witness for C8: scenario C — naturalWidth=800, naturalHeight=400,
current 50x25, resized to width 100 gives height 50. -/
theorem updateImageSize_aspect_witness :
    ((100 : ℚ) ≠ 50) ∧
    (resizeOne { id := "c", width := 50, height := 25, naturalWidth := 800,
                 naturalHeight := 400 } 100 25 true).height = 50 := by
  refine ⟨by norm_num, ?_⟩
  have h := (updateImageSize_aspect { id := "c", width := 50, height := 25,
                                      naturalWidth := 800,
                                      naturalHeight := 400 } 100 25).1
    (by norm_num)
  rw [h.2]
  norm_num

/-- C9: no empty page is ever emitted — an empty input yields an empty
page list, and every page of any `packImages` output carries at least one
placement. -/
theorem packImages_pages_nonempty (images : List PrintImage)
    (pw ph pm im : ℚ) :
    packImages [] pw ph pm im = [] ∧
    ∀ page ∈ packImages images pw ph pm im, page.images ≠ [] := by
  constructor
  · rfl
  · intro page hpage
    simp only [packImages] at hpage
    obtain ⟨rem', hne, rfl⟩ := packLoop_mem (pw - 2 * pm) (ph - 2 * pm) pm im
      (images.insertionSort areaGe).length _ (le_refl _) page hpage
    exact packStep_page_ne_nil _ _ _ _ _ hne

unseal Rat.mul Rat.inv Rat.add Rat.sub in
/-- Witness for C9. -/
theorem packImages_pages_nonempty_witness :
    ((⟨[{ image := imgA, x := 10, y := 10, rotated := false }]⟩ : Page) ∈
      packImages [imgA] 210 297 10 5) ∧
    (⟨[{ image := imgA, x := 10, y := 10, rotated := false }]⟩ : Page).images ≠ [] :=
  ⟨by decide, (packImages_pages_nonempty [imgA] 210 297 10 5).2 _ (by decide)⟩

/-- C10: `packImages` does not modify its inputs — the source copies the
image array before sorting and splices only copies, so in the
state-passing rendering the caller's array comes back unchanged and the
page list is the same pure function of `(images, pageConfig)`. -/
theorem packImages_pure (images : List PrintImage) (pw ph pm im : ℚ) :
    (packImagesMut images pw ph pm im).2 = images ∧
    (packImagesMut images pw ph pm im).1 = packImages images pw ph pm im :=
  ⟨rfl, rfl⟩

end ImageTools
